import Mathlib

set_option maxHeartbeats 1000000
set_option maxRecDepth 4000

/- Shallow embedding of mccabe_analyzer.py: the method-boundary extractor
   (extract_methods) and the complexity scorer (calculate_mccabe_complexity).
   Text is modelled as List Char over the ASCII fragment of Python str. -/

namespace McCabe

/-- ASCII model of the Python regex class \s (also what str.strip removes). -/
def isSpacePy (c : Char) : Bool :=
  c == ' ' || c == '\t' || c == '\n' || c == '\r' || c == Char.ofNat 11 || c == Char.ofNat 12

/-- ASCII model of the Python regex class \w. -/
def isWordChar (c : Char) : Bool :=
  c.isAlphanum || c == '_'

/- ------------------------------------------------------------------
   Scorer, step 1: normalisation (lines 139-146 of mccabe_analyzer.py)
   ------------------------------------------------------------------ -/

/-- Characters consumed by the tail of re pattern q[^q\\]*(?:\\.[^q\\]*)*q when
    matching just after the opening quote q, including the closing quote; none
    when the literal never closes (note that the regex . does not match a
    newline, so a backslash followed by a newline kills the match, while a bare
    newline is accepted by the negated class). -/
def findCloseLit (q : Char) : List Char → Option Nat
  | [] => none
  | [c] => if c == q then some 1 else none
  | c :: c2 :: r2 =>
    if c == q then some 1
    else if c == '\\' then
      if c2 == '\n' then none else (findCloseLit q r2).map (· + 2)
    else (findCloseLit q (c2 :: r2)).map (· + 1)

/-- One re.sub pass replacing every q-quoted literal (with escape handling) by
    an empty pair q q, as in lines 139-140.  An opening quote with no closing
    quote is no match: re.sub keeps it and resumes scanning one character
    further.  Fuel counts scan steps; every step consumes at least one
    character, so fuel = length of the input is enough. -/
def stripLitGo (q : Char) : Nat → List Char → List Char
  | 0, s => s
  | _+1, [] => []
  | n+1, c :: r =>
    if c == q then
      match findCloseLit q r with
      | some k => q :: q :: stripLitGo q n (List.drop k r)
      | none => c :: stripLitGo q n r
    else c :: stripLitGo q n r

def stripLit (q : Char) (s : List Char) : List Char := stripLitGo q s.length s

/-- The re.sub of line 143 (pattern //.*$ with MULTILINE): drop everything from
    each // to the end of its line.  The Bool records whether the scan is
    currently inside a line comment. -/
def stripLCGo : Bool → List Char → List Char
  | _, [] => []
  | true, c :: r => if c == '\n' then c :: stripLCGo false r else stripLCGo true r
  | false, c :: r =>
    match r with
    | [] => [c]
    | c2 :: r2 =>
      if c == '/' && c2 == '/' then stripLCGo true r2
      else c :: stripLCGo false (c2 :: r2)

def stripLC (s : List Char) : List Char := stripLCGo false s

/-- Characters consumed up to and including the first * / pair. -/
def findStarSlash : List Char → Option Nat
  | [] => none
  | c :: r =>
    match r with
    | [] => none
    | c2 :: r2 =>
      if c == '*' && c2 == '/' then some 2
      else (findStarSlash (c2 :: r2)).map (· + 1)

/-- re.sub of line 146: drop each block comment up to the first closing * /
    (non-greedy, DOTALL).  An unterminated opener is kept verbatim: with no
    closer anywhere after it no later opener can match either. -/
def stripBCGo : Nat → List Char → List Char
  | 0, s => s
  | _+1, [] => []
  | n+1, c :: r =>
    match r with
    | [] => [c]
    | c2 :: r2 =>
      if c == '/' && c2 == '*' then
        match findStarSlash r2 with
        | some k => stripBCGo n (List.drop k r2)
        | none => c :: c2 :: r2
      else c :: stripBCGo n (c2 :: r2)

def stripBC (s : List Char) : List Char := stripBCGo s.length s

/-- The single-quote character. -/
def sq : Char := Char.ofNat 39

/-- The normalisation pipeline of calculate_mccabe_complexity, in source
    order: double-quoted literals, then single-quoted literals, then line
    comments, then block comments. -/
def normalize (body : List Char) : List Char :=
  stripBC (stripLC (stripLit sq (stripLit '"' body)))

/- ------------------------------------------------------------------
   Scorer, step 2: the thirteen findall counts (lines 149-167)
   ------------------------------------------------------------------ -/

/-- findall count of the pattern && : non-overlapping, left to right. -/
def countAnd : List Char → Nat
  | [] => 0
  | [_] => 0
  | c1 :: c2 :: r =>
    if c1 == '&' && c2 == '&' then countAnd r + 1 else countAnd (c2 :: r)

/-- findall count of the pattern \|\| . -/
def countOr : List Char → Nat
  | [] => 0
  | [_] => 0
  | c1 :: c2 :: r =>
    if c1 == '|' && c2 == '|' then countOr r + 1 else countOr (c2 :: r)

/-- findall count of the pattern \?\? . -/
def countNullCoal : List Char → Nat
  | [] => 0
  | [_] => 0
  | c1 :: c2 :: r =>
    if c1 == '?' && c2 == '?' then countNullCoal r + 1 else countNullCoal (c2 :: r)

/-- findall count of the pattern \?[^?] : a ? followed by a character other
    than ? ; the match consumes both characters, and a trailing lone ? never
    matches. -/
def countTernary : List Char → Nat
  | [] => 0
  | [_] => 0
  | c1 :: c2 :: r =>
    if c1 == '?' && c2 != '?' then countTernary r + 1 else countTernary (c2 :: r)

/-- Drop an expected literal keyword, or fail. -/
def dropKw : List Char → List Char → Option (List Char)
  | [], s => some s
  | _ :: _, [] => none
  | a :: p, b :: s => if a == b then dropKw p s else none

/-- Greedy \s* . -/
def skipWS (s : List Char) : List Char := s.dropWhile isSpacePy

/-- \s+ : at least one whitespace character, greedily consumed. -/
def wsPlus : List Char → Option (List Char)
  | [] => none
  | c :: r => if isSpacePy c then some (skipWS r) else none

/-- A single required literal character. -/
def needChar (c : Char) : List Char → Option (List Char)
  | [] => none
  | b :: s => if b == c then some s else none

/-- Matcher for the tail of \bif\s*\( at the current position. -/
def matchIf (s : List Char) : Option (List Char) :=
  (dropKw "if".data s).bind (fun r => needChar '(' (skipWS r))

/-- Matcher for \belse\s+if\s*\( . -/
def matchElseIf (s : List Char) : Option (List Char) :=
  (dropKw "else".data s).bind (fun r =>
    (wsPlus r).bind (fun r2 =>
      (dropKw "if".data r2).bind (fun r3 => needChar '(' (skipWS r3))))

/-- Matcher for \bfor\s*\( (it does not fire on foreach: after "for" the
    pattern requires whitespace-then-parenthesis, which "each" is not). -/
def matchFor (s : List Char) : Option (List Char) :=
  (dropKw "for".data s).bind (fun r => needChar '(' (skipWS r))

/-- Matcher for \bforeach\s*\( . -/
def matchForeach (s : List Char) : Option (List Char) :=
  (dropKw "foreach".data s).bind (fun r => needChar '(' (skipWS r))

/-- Matcher for \bwhile\s*\( . -/
def matchWhile (s : List Char) : Option (List Char) :=
  (dropKw "while".data s).bind (fun r => needChar '(' (skipWS r))

/-- Matcher for \bdo\s*\x7b . -/
def matchDo (s : List Char) : Option (List Char) :=
  (dropKw "do".data s).bind (fun r => needChar '{' (skipWS r))

/-- Matcher for \bcatch\s*\( . -/
def matchCatchParen (s : List Char) : Option (List Char) :=
  (dropKw "catch".data s).bind (fun r => needChar '(' (skipWS r))

/-- Matcher for \bcatch\s*\x7b (catch without exception type). -/
def matchCatchBrace (s : List Char) : Option (List Char) :=
  (dropKw "catch".data s).bind (fun r => needChar '{' (skipWS r))

/-- Index of the first colon. -/
def findColon : List Char → Option Nat
  | [] => none
  | c :: r => if c == ':' then some 0 else (findColon r).map (· + 1)

/-- Matcher for \bcase\s+[^:]+: .  The match runs to the first colon after
    "case"; the span between "case" and that colon must be at least two
    characters long and start with whitespace (\s+ then a nonempty [^:]+;
    whitespace itself is in [^:], so the greedy engine accepts exactly these
    spans). -/
def matchCase (s : List Char) : Option (List Char) :=
  (dropKw "case".data s).bind (fun r =>
    match r, findColon r with
    | c :: _, some k =>
      if isSpacePy c then
        if 2 ≤ k then some (List.drop (k + 1) r) else none
      else none
    | _, _ => none)

/-- findall count for a pattern of shape \bKEYWORD...END where END is a
    non-word character: scan left to right; a match may start only where the
    previous character is not a word character (the Bool argument); scanning
    resumes right after a match, whose last character END is never a word
    character, hence the Bool is reset to false there.  Fuel counts steps and
    each step consumes at least one character. -/
def scanBGo (m : List Char → Option (List Char)) : Nat → Bool → List Char → Nat
  | 0, _, _ => 0
  | _+1, _, [] => 0
  | n+1, wb, c :: r =>
    if wb then scanBGo m n (isWordChar c) r
    else
      match m (c :: r) with
      | some rest => scanBGo m n false rest + 1
      | none => scanBGo m n (isWordChar c) r

def scanB (m : List Char → Option (List Char)) (s : List Char) : Nat :=
  scanBGo m s.length false s

def countIf (s : List Char) : Nat := scanB matchIf s
def countElseIf (s : List Char) : Nat := scanB matchElseIf s
def countFor (s : List Char) : Nat := scanB matchFor s
def countForeach (s : List Char) : Nat := scanB matchForeach s
def countWhile (s : List Char) : Nat := scanB matchWhile s
def countDo (s : List Char) : Nat := scanB matchDo s
def countCase (s : List Char) : Nat := scanB matchCase s
def countCatchParen (s : List Char) : Nat := scanB matchCatchParen s
def countCatchBrace (s : List Char) : Nat := scanB matchCatchBrace s

/-- The thirteen findall counts of decision_patterns, in source order
    (lines 149-163). -/
def countsList (s : List Char) : List Nat :=
  [countIf s, countElseIf s, countFor s, countForeach s, countWhile s, countDo s,
   countCase s, countCatchParen s, countCatchBrace s, countAnd s, countOr s,
   countTernary s, countNullCoal s]

/-- The same counts as a function on Fin 13 (index 1 is the else-if count). -/
def countsF (s : List Char) (k : Fin 13) : Nat := (countsList s).getD k.val 0

/-- calculate_mccabe_complexity (lines 119-173): 1 plus the sum of the
    thirteen counts on the normalised body, minus the else-if count once more,
    floored at 1 by the final max(1, complexity). -/
def calculate_mccabe_complexity (body : List Char) : Int :=
  let nb := normalize body
  max 1 (1 + ((countsList nb).map (fun n => (n : Int))).sum - (countElseIf nb : Int))


/- ------------------------------------------------------------------
   Extractor: a backtracking engine for the two re.search patterns
   of extract_methods (lines 53 and 76)
   ------------------------------------------------------------------ -/

/-- Captured groups of a match: (group index, captured text). -/
abbrev Caps := List (Nat × List Char)

/-- Syntax of the regular expressions used by extract_methods.  eos is the
    anchor $ (the scanned strings are single lines without a newline, so $
    holds exactly at the end of the string). -/
inductive RE where
  | eps
  | cls (p : Char → Bool)
  | cat (a b : RE)
  | alt (a b : RE)
  | star (a : RE)
  | grp (i : Nat) (a : RE)
  | eos

def reSize : RE → Nat
  | .eps => 1
  | .cls _ => 1
  | .cat a b => reSize a + reSize b + 1
  | .alt a b => reSize a + reSize b + 1
  | .star a => reSize a + 1
  | .grp _ a => reSize a + 1
  | .eos => 1

/-- Backtracking matcher in continuation-passing style, mirroring the Python
    re engine: alternation tries the left branch first, star is greedy and
    backtracks iteration by iteration.  Fuel decreases by one on every
    recursive call; in the patterns below every starred subexpression consumes
    at least one character per iteration, so the call depth is bounded by the
    pattern size plus the input length and the generous fuel used by matchAt
    never runs out. -/
def matchRE : Nat → RE → List Char → Caps → (List Char → Caps → Option Caps) → Option Caps
  | 0, _, _, _, _ => none
  | _+1, .eps, s, caps, k => k s caps
  | _+1, .cls _, [], _, _ => none
  | _+1, .cls p, c :: r, caps, k => if p c then k r caps else none
  | n+1, .cat a b, s, caps, k => matchRE n a s caps (fun s1 c1 => matchRE n b s1 c1 k)
  | n+1, .alt a b, s, caps, k =>
    (matchRE n a s caps k).orElse (fun _ => matchRE n b s caps k)
  | n+1, .star a, s, caps, k =>
    (matchRE n a s caps (fun s1 c1 => matchRE n (.star a) s1 c1 k)).orElse
      (fun _ => k s caps)
  | n+1, .grp i a, s, caps, k =>
    matchRE n a s caps (fun s1 c1 => k s1 ((i, List.take (s.length - s1.length) s) :: c1))
  | _+1, .eos, s, caps, k => if s.isEmpty then k s caps else none

/-- Try a match anchored at the current position. -/
def matchAt (re : RE) (s : List Char) : Option Caps :=
  matchRE ((reSize re + 2) * (s.length + 2)) re s [] (fun _ caps => some caps)

/-- re.search: try a match at every start position, leftmost first (the
    position one past the last character included). -/
def reSearch (re : RE) : List Char → Option Caps
  | [] => matchAt re []
  | c :: r => (matchAt re (c :: r)).orElse (fun _ => reSearch re r)

def getCap : Caps → Nat → Option (List Char)
  | [], _ => none
  | (j, v) :: rest, i => if j == i then some v else getCap rest i

def chrRE (c : Char) : RE := .cls (fun x => x == c)

def strRE : List Char → RE
  | [] => .eps
  | [c] => chrRE c
  | c :: r => .cat (chrRE c) (strRE r)

/-- Ordered alternation of a list of alternatives. -/
def altList : List RE → RE
  | [] => .cls (fun _ => false)
  | [a] => a
  | a :: r => .alt a (altList r)

def plusRE (a : RE) : RE := .cat a (.star a)
def optRE (a : RE) : RE := .alt a .eps
def wsRE : RE := .cls isSpacePy

/-- class_pattern of line 53 (the modifier keyword list includes the last one
    of the source, spelled there between sealed|abstract|static and the
    type-kind keywords):
    (?:public|private|protected|internal|sealed|abstract|static|...)?
    \s*(?:class|struct|record)\s+(\w+) -/
def classRE : RE :=
  .cat (optRE (altList
      (["public", "private", "protected", "internal", "sealed", "abstract",
        "static", "partial"].map (fun w => strRE w.data))))
    (.cat (.star wsRE)
      (.cat (altList (["class", "struct", "record"].map (fun w => strRE w.data)))
        (.cat (plusRE wsRE) (.grp 1 (plusRE (.cls isWordChar))))))

/-- The character class [\w<>\[\],\?] of the method signature pattern. -/
def isG1Char (c : Char) : Bool :=
  isWordChar c || c == '<' || c == '>' || c == '[' || c == ']' || c == ',' || c == '?'

/-- The inline method signature regex of line 76:
    (?:public|private|protected|internal|static|virtual|override|abstract|
    async|sealed|\s)+\s*([\w<>\[\],\?]+)\s+(\w+)\s*\([^)]*\)\s*(?:\x7b|$) -/
def methodRE : RE :=
  .cat (plusRE (altList
      ((["public", "private", "protected", "internal", "static", "virtual",
         "override", "abstract", "async", "sealed"].map (fun w => strRE w.data))
        ++ [wsRE])))
    (.cat (.star wsRE)
      (.cat (.grp 1 (plusRE (.cls isG1Char)))
        (.cat (plusRE wsRE)
          (.cat (.grp 2 (plusRE (.cls isWordChar)))
            (.cat (.star wsRE)
              (.cat (chrRE '(')
                (.cat (.star (.cls (fun c => c != ')')))
                  (.cat (chrRE ')')
                    (.cat (.star wsRE)
                      (.alt (chrRE '{') .eos))))))))))

/-- class_pattern.search(line) followed by group(1) (lines 67-72 assign
    group(1) to current_class in both branches whenever the search matched). -/
def classSearch (line : List Char) : Option (List Char) :=
  (reSearch classRE line).bind (fun caps => getCap caps 1)

/-- re.search of the method signature pattern followed by group(2), the
    method name. -/
def methodSearch (line : List Char) : Option (List Char) :=
  (reSearch methodRE line).bind (fun caps => getCap caps 2)

/- ------------------------------------------------------------------
   Extractor: the scanning loop of extract_methods (lines 40-117)
   ------------------------------------------------------------------ -/

def startsWithL : List Char → List Char → Bool
  | [], _ => true
  | _ :: _, [] => false
  | a :: p, b :: s => a == b && startsWithL p s

/-- Python substring containment (the in operator on str). -/
def isSubstr : List Char → List Char → Bool
  | pat, [] => pat.isEmpty
  | pat, c :: r => startsWithL pat (c :: r) || isSubstr pat r

/-- Python str.strip(). -/
def pyStrip (s : List Char) : List Char :=
  ((s.dropWhile isSpacePy).reverse.dropWhile isSpacePy).reverse

/-- Line 62: skip blank lines and lines whose stripped text opens with a
    comment marker. -/
def isSkippedLine (l : List Char) : Bool :=
  startsWithL "//".data (pyStrip l) || startsWithL "/*".data (pyStrip l)
    || (pyStrip l).isEmpty

/-- Line 78: the five substring tests (each keyword with a trailing space)
    that exclude a line from method matching. -/
def containsAnyKW (l : List Char) : Bool :=
  isSubstr "class ".data l || isSubstr "interface ".data l
    || isSubstr "struct ".data l || isSubstr "enum ".data l
    || isSubstr "namespace ".data l

/-- Line 82: accessor-like names that are never emitted as methods. -/
def reservedNames : List (List Char) :=
  ["get".data, "set".data, "add".data, "remove".data, "value".data]

/-- The per-character brace walk of lines 96-101 over one line: running depth
    and whether an opening brace has been seen. -/
def scanLine : List Char → Int → Bool → Int × Bool
  | [], d, f => (d, f)
  | c :: r, d, f =>
    if c == '{' then scanLine r (d + 1) true
    else if c == '}' then scanLine r (d - 1) f
    else scanLine r d f

/-- Number of lines the inner body-capture loop of lines 92-108 consumes,
    starting with running depth d and opening-brace flag f: it stops at the
    first line after which the flag is set and the depth is back to zero, and
    otherwise runs to the end of the input. -/
def captureCount : List (List Char) → Int → Bool → Nat
  | [], _, _ => 0
  | l :: ls, d, f =>
    let df := scanLine l d f
    if df.2 = true ∧ df.1 = 0 then 1 else 1 + captureCount ls df.1 df.2

/-- True when the capture loop started at this state never finds the balance
    point: after no prefix of the lines is the flag set with depth zero. -/
def neverClosesB : List (List Char) → Int → Bool → Bool
  | [], _, _ => true
  | l :: ls, d, f =>
    let df := scanLine l d f
    (!(df.2 && df.1 == 0)) && neverClosesB ls df.1 df.2

/-- Python content.split('\n'). -/
def splitOnNl : List Char → List (List Char)
  | [] => [[]]
  | c :: r =>
    if c == '\n' then [] :: splitOnNl r
    else
      match splitOnNl r with
      | [] => [[c]]
      | l :: ls => (c :: l) :: ls

/-- The while loop of extract_methods.  idx is the 0-based index of the first
    line of ls in the file; cls is current_class.  Each record is
    (class_name, method_name, method_body, start_line) as in the source.
    Fuel counts loop iterations; every iteration consumes at least one line
    (after a captured body the cursor jumps just past it), so fuel = number of
    remaining lines is enough (theorem mccabe_c10 below). -/
def extractGo : Nat → List (List Char) → Nat → List Char →
    List (List Char × List Char × List Char × Nat)
  | 0, _, _, _ => []
  | _+1, [], _, _ => []
  | n+1, l :: rest, idx, cls =>
    if isSkippedLine l then extractGo n rest (idx + 1) cls
    else
      let cls' := (classSearch l).getD cls
      match methodSearch l with
      | none => extractGo n rest (idx + 1) cls'
      | some nm =>
        if containsAnyKW l then extractGo n rest (idx + 1) cls'
        else if nm ∈ reservedNames then extractGo n rest (idx + 1) cls'
        else
          let cnt := captureCount (l :: rest) 0 false
          (cls', nm, List.intercalate ['\n'] (List.take cnt (l :: rest)), idx + 1) ::
            extractGo n (List.drop cnt (l :: rest)) (idx + cnt) cls'

/-- extract_methods (the file_path argument of the source is never read). -/
def extract_methods (content : List Char) :
    List (List Char × List Char × List Char × Nat) :=
  extractGo (splitOnNl content).length (splitOnNl content) 0 "Unknown".data


/- ------------------------------------------------------------------
   Lemmas about literal stripping
   ------------------------------------------------------------------ -/

theorem stripLitGo_nil (q : Char) (n : Nat) : stripLitGo q n [] = [] := by
  cases n <;> rfl

/-- The scanner copies any quote-free prefix unchanged, spending one unit of
    fuel per character. -/
theorem stripLitGo_append (q : Char) :
    ∀ (p : List Char), q ∉ p → ∀ (n : Nat) (x : List Char),
      stripLitGo q (p.length + n) (p ++ x) = p ++ stripLitGo q n x := by
  intro p
  induction p with
  | nil => intro _ n x; simp
  | cons c p ih =>
    intro hq n x
    have hc : ¬(c == q) = true := by
      simp only [beq_iff_eq]
      intro h; exact hq (h ▸ List.mem_cons_self c p)
    have hlen : (c :: p).length + n = (p.length + n) + 1 := by
      simp [List.length_cons]; omega
    rw [hlen, List.cons_append, stripLitGo, if_neg hc]
    have hp : q ∉ p := fun h => hq (List.mem_cons_of_mem c h)
    rw [ih hp n x, List.cons_append]

theorem findCloseLit_bounds (q : Char) :
    ∀ (N : Nat) (r : List Char) (k : Nat), r.length ≤ N →
      findCloseLit q r = some k → 1 ≤ k ∧ k ≤ r.length := by
  intro N
  induction N with
  | zero =>
    intro r k hr h
    cases r with
    | nil => simp [findCloseLit] at h
    | cons c r' => simp at hr
  | succ N ih =>
    intro r k hr h
    cases r with
    | nil => simp [findCloseLit] at h
    | cons c r' =>
      cases r' with
      | nil =>
        rw [findCloseLit] at h
        by_cases h1 : (c == q) = true
        · rw [if_pos h1] at h; cases h; simp
        · rw [if_neg h1] at h; cases h
      | cons c2 r2 =>
        rw [findCloseLit] at h
        by_cases h1 : (c == q) = true
        · rw [if_pos h1] at h
          cases h
          simp
        · rw [if_neg h1] at h
          by_cases h2 : (c == '\\') = true
          · rw [if_pos h2] at h
            by_cases h3 : (c2 == '\n') = true
            · rw [if_pos h3] at h; cases h
            · rw [if_neg h3] at h
              rcases Option.map_eq_some'.mp h with ⟨k', hk', rfl⟩
              have hb := ih r2 k' (by simp at hr ⊢; omega) hk'
              refine ⟨by omega, ?_⟩
              simp at hb ⊢
              omega
          · rw [if_neg h2] at h
            rcases Option.map_eq_some'.mp h with ⟨k', hk', rfl⟩
            have hb := ih (c2 :: r2) k' (by simp at hr ⊢; omega) hk'
            refine ⟨by omega, ?_⟩
            simp at hb ⊢
            omega

/-- Any two sufficient fuels give the same result. -/
theorem stripLitGo_fuel (q : Char) :
    ∀ (N : Nat) (s : List Char) (n m : Nat), s.length ≤ N →
      s.length ≤ n → s.length ≤ m → stripLitGo q n s = stripLitGo q m s := by
  intro N
  induction N with
  | zero =>
    intro s n m hN _ _
    have : s = [] := List.length_eq_zero.mp (Nat.le_zero.mp hN)
    subst this
    rw [stripLitGo_nil, stripLitGo_nil]
  | succ N ih =>
    intro s n m hN hn hm
    cases s with
    | nil => rw [stripLitGo_nil, stripLitGo_nil]
    | cons c r =>
      have hr : r.length ≤ N := by simp at hN; omega
      obtain ⟨n', rfl⟩ : ∃ n', n = n' + 1 := by
        cases n with
        | zero => simp at hn
        | succ n' => exact ⟨n', rfl⟩
      obtain ⟨m', rfl⟩ : ∃ m', m = m' + 1 := by
        cases m with
        | zero => simp at hm
        | succ m' => exact ⟨m', rfl⟩
      have hn' : r.length ≤ n' := by simp at hn; omega
      have hm' : r.length ≤ m' := by simp at hm; omega
      cases hf : findCloseLit q r with
      | none =>
        rw [stripLitGo, stripLitGo, hf]
        by_cases h1 : (c == q) = true
        · rw [if_pos h1, if_pos h1]
          dsimp only
          rw [ih r n' m' hr hn' hm']
        · rw [if_neg h1, if_neg h1, ih r n' m' hr hn' hm']
      | some k =>
        rw [stripLitGo, stripLitGo, hf]
        by_cases h1 : (c == q) = true
        · rw [if_pos h1, if_pos h1]
          dsimp only
          have hd : (List.drop k r).length ≤ N := by
            simp [List.length_drop]; omega
          have hdn : (List.drop k r).length ≤ n' := by
            simp [List.length_drop]; omega
          have hdm : (List.drop k r).length ≤ m' := by
            simp [List.length_drop]; omega
          rw [ih (List.drop k r) n' m' hd hdn hdm]
        · rw [if_neg h1, if_neg h1, ih r n' m' hr hn' hm']

/-- After an opening quote, a backslash-free and quote-free span closes at the
    next quote. -/
theorem findCloseLit_mid (q : Char) :
    ∀ (mid : List Char), q ∉ mid → '\\' ∉ mid → ∀ (s : List Char),
      findCloseLit q (mid ++ q :: s) = some (mid.length + 1) := by
  intro mid
  induction mid with
  | nil =>
    intro _ _ s
    cases s with
    | nil => simp [findCloseLit]
    | cons t ts => simp [findCloseLit]
  | cons c mid ih =>
    intro hq hb s
    have hc1 : ¬(c == q) = true := by
      simp only [beq_iff_eq]
      intro h; exact hq (h ▸ List.mem_cons_self c mid)
    have hc2 : ¬(c == '\\') = true := by
      simp only [beq_iff_eq]
      intro h; exact hb (h ▸ List.mem_cons_self c mid)
    have hne : ∃ t ts, mid ++ q :: s = t :: ts := by
      cases mid with
      | nil => exact ⟨q, s, rfl⟩
      | cons a as => exact ⟨a, as ++ q :: s, rfl⟩
    rcases hne with ⟨t, ts, hx⟩
    rw [List.cons_append, hx, findCloseLit, if_neg hc1, if_neg hc2, ← hx]
    rw [ih (fun h => hq (List.mem_cons_of_mem c h))
        (fun h => hb (List.mem_cons_of_mem c h)) s]
    simp [List.length_cons]

/-- Core collapse: a literal with quote-free, backslash-free content strips to
    the empty literal, independently of everything after it. -/
theorem stripLit_collapse (q : Char) (p mid s : List Char)
    (hp : q ∉ p) (hm : q ∉ mid) (hb : '\\' ∉ mid) :
    stripLit q (p ++ q :: (mid ++ q :: s)) = p ++ q :: q :: stripLit q s := by
  unfold stripLit
  have hlen : (p ++ q :: (mid ++ q :: s)).length
      = p.length + (mid.length + s.length + 2) := by
    simp [List.length_append, List.length_cons]; omega
  rw [hlen, stripLitGo_append q p hp]
  have h2 : mid.length + s.length + 2 = (mid.length + s.length + 1) + 1 := by omega
  rw [h2, stripLitGo, if_pos (beq_self_eq_true q), findCloseLit_mid q mid hm hb s]
  dsimp only
  have hdrop : List.drop (mid.length + 1) (mid ++ q :: s) = s := by
    have hsplit : mid ++ q :: s = (mid ++ [q]) ++ s := by simp
    rw [hsplit]
    have hl : mid.length + 1 = (mid ++ [q]).length := by simp
    rw [hl, List.drop_left]
  rw [hdrop]
  rw [stripLitGo_fuel q (mid.length + s.length + 1) s (mid.length + s.length + 1)
      s.length (by omega) (by omega) (le_refl _)]

/-- A quote-free text is left unchanged by the pass for that quote. -/
theorem stripLit_id (q : Char) (s : List Char) (h : q ∉ s) : stripLit q s = s := by
  unfold stripLit
  have h2 := stripLitGo_append q s h 0 []
  simp only [List.append_nil, Nat.add_zero, stripLitGo_nil] at h2
  exact h2

/-- Emptying a double-quoted literal does not change the normalised text. -/
theorem normalize_collapse_dq (p mid s : List Char)
    (hp : '"' ∉ p) (hm : '"' ∉ mid) (hb : '\\' ∉ mid) :
    normalize (p ++ '"' :: (mid ++ '"' :: s)) = normalize (p ++ '"' :: '"' :: s) := by
  unfold normalize
  have h1 := stripLit_collapse '"' p mid s hp hm hb
  have h2 := stripLit_collapse '"' p [] s hp (by simp) (by simp)
  simp only [List.nil_append] at h2
  rw [h1, h2]

/-- Emptying a single-quoted literal does not change the normalised text
    (the double-quote pass, which runs first, touches neither side when the
    text is free of double quotes). -/
theorem normalize_collapse_sq (p mid s : List Char)
    (hq1 : '"' ∉ p) (hq2 : '"' ∉ mid) (hq3 : '"' ∉ s)
    (hp : sq ∉ p) (hm : sq ∉ mid) (hb : '\\' ∉ mid) :
    normalize (p ++ sq :: (mid ++ sq :: s)) = normalize (p ++ sq :: sq :: s) := by
  unfold normalize
  have hqs : '"' ≠ sq := by decide
  have hid1 : '"' ∉ p ++ sq :: (mid ++ sq :: s) := by
    intro h
    rcases List.mem_append.mp h with h | h
    · exact hq1 h
    · rcases List.mem_cons.mp h with h | h
      · exact hqs h
      · rcases List.mem_append.mp h with h | h
        · exact hq2 h
        · rcases List.mem_cons.mp h with h | h
          · exact hqs h
          · exact hq3 h
  have hid2 : '"' ∉ p ++ sq :: sq :: s := by
    intro h
    rcases List.mem_append.mp h with h | h
    · exact hq1 h
    · rcases List.mem_cons.mp h with h | h
      · exact hqs h
      · rcases List.mem_cons.mp h with h | h
        · exact hqs h
        · exact hq3 h
  rw [stripLit_id '"' _ hid1, stripLit_id '"' _ hid2]
  have h1 := stripLit_collapse sq p mid s hp hm hb
  have h2 := stripLit_collapse sq p [] s hp (by simp) (by simp)
  simp only [List.nil_append] at h2
  rw [h1, h2]

/- ------------------------------------------------------------------
   Lemmas about the ternary and null-coalescing counters
   ------------------------------------------------------------------ -/

theorem countTernary_noq :
    ∀ (s : List Char), (∀ c ∈ s, c ≠ '?') → countTernary s = 0 := by
  intro s
  induction s with
  | nil => intro _; rfl
  | cons c r ih =>
    intro h
    cases r with
    | nil => rfl
    | cons c2 r2 =>
      have hc : c ≠ '?' := h c (List.mem_cons_self c _)
      rw [countTernary, if_neg (by simp [hc])]
      exact ih (fun x hx => h x (List.mem_cons_of_mem c hx))

theorem countNullCoal_noq :
    ∀ (s : List Char), (∀ c ∈ s, c ≠ '?') → countNullCoal s = 0 := by
  intro s
  induction s with
  | nil => intro _; rfl
  | cons c r ih =>
    intro h
    cases r with
    | nil => rfl
    | cons c2 r2 =>
      have hc : c ≠ '?' := h c (List.mem_cons_self c _)
      rw [countNullCoal, if_neg (by simp [hc])]
      exact ih (fun x hx => h x (List.mem_cons_of_mem c hx))

/-- When the only question marks of the text are one adjacent pair that is
    followed by at least one more character, the ternary rule \?[^?] fires
    exactly once, on the second ? of the pair. -/
theorem countTernary_one :
    ∀ (u : List Char), (∀ c ∈ u, c ≠ '?') →
      ∀ (v : List Char), (∀ c ∈ v, c ≠ '?') → v ≠ [] →
        countTernary (u ++ '?' :: '?' :: v) = 1 := by
  intro u
  induction u with
  | nil =>
    intro _ v hv hne
    cases v with
    | nil => exact absurd rfl hne
    | cons w v2 =>
      simp only [List.nil_append]
      rw [countTernary, if_neg (by simp)]
      rw [countTernary, if_pos (by simp [hv w (List.mem_cons_self w _)])]
      rw [countTernary_noq v2 (fun x hx => hv x (List.mem_cons_of_mem w hx))]
  | cons a u ih =>
    intro hu v hv hne
    have ha : a ≠ '?' := hu a (List.mem_cons_self a _)
    obtain ⟨t, ts, hx⟩ : ∃ t ts, u ++ '?' :: '?' :: v = t :: ts := by
      cases u with
      | nil => exact ⟨'?', '?' :: v, rfl⟩
      | cons b bs => exact ⟨b, bs ++ '?' :: '?' :: v, rfl⟩
    rw [List.cons_append, hx, countTernary, if_neg (by simp [ha]), ← hx]
    exact ih (fun x hx2 => hu x (List.mem_cons_of_mem a hx2)) v hv hne

/-- Under the same conditions the null-coalescing rule \?\? fires exactly
    once. -/
theorem countNullCoal_one :
    ∀ (u : List Char), (∀ c ∈ u, c ≠ '?') →
      ∀ (v : List Char), (∀ c ∈ v, c ≠ '?') →
        countNullCoal (u ++ '?' :: '?' :: v) = 1 := by
  intro u
  induction u with
  | nil =>
    intro _ v hv
    simp only [List.nil_append]
    rw [countNullCoal, if_pos (by simp)]
    rw [countNullCoal_noq v hv]
  | cons a u ih =>
    intro hu v hv
    have ha : a ≠ '?' := hu a (List.mem_cons_self a _)
    obtain ⟨t, ts, hx⟩ : ∃ t ts, u ++ '?' :: '?' :: v = t :: ts := by
      cases u with
      | nil => exact ⟨'?', '?' :: v, rfl⟩
      | cons b bs => exact ⟨b, bs ++ '?' :: '?' :: v, rfl⟩
    rw [List.cons_append, hx, countNullCoal, if_neg (by simp [ha]), ← hx]
    exact ih (fun x hx2 => hu x (List.mem_cons_of_mem a hx2)) v hv

/- ------------------------------------------------------------------
   Lemmas about the body-capture loop and the scanning loop
   ------------------------------------------------------------------ -/

/-- The capture loop always consumes the signature line itself. -/
theorem captureCount_pos (l : List Char) (ls : List (List Char)) (d : Int) (f : Bool) :
    1 ≤ captureCount (l :: ls) d f := by
  rw [captureCount]
  split
  · exact le_refl 1
  · omega

/-- The capture loop never runs past the end of the input. -/
theorem captureCount_le :
    ∀ (ls : List (List Char)) (d : Int) (f : Bool), captureCount ls d f ≤ ls.length := by
  intro ls
  induction ls with
  | nil => intro d f; simp [captureCount]
  | cons l ls ih =>
    intro d f
    rw [captureCount]
    split
    · simp
    · have := ih (scanLine l d f).1 (scanLine l d f).2
      simp only [List.length_cons]
      omega

/-- If the balance point is never reached the capture loop consumes every
    remaining line. -/
theorem neverCloses_captureAll :
    ∀ (ls : List (List Char)) (d : Int) (f : Bool),
      neverClosesB ls d f = true → captureCount ls d f = ls.length := by
  intro ls
  induction ls with
  | nil => intro d f _; rfl
  | cons l ls ih =>
    intro d f h
    rw [neverClosesB] at h
    rw [captureCount]
    rw [Bool.and_eq_true] at h
    rcases h with ⟨h1, h2⟩
    rw [if_neg (by
      intro hc
      rcases hc with ⟨hf, hd⟩
      rw [Bool.not_eq_true'] at h1
      rw [Bool.and_eq_false_iff] at h1
      rcases h1 with h1 | h1
      · rw [hf] at h1; cases h1
      · rw [hd] at h1; simp at h1)]
    rw [ih _ _ h2]
    simp only [List.length_cons]
    omega

/-- A line without an opening brace leaves the opening-brace flag unchanged. -/
theorem scanLine_no_open :
    ∀ (l : List Char) (d : Int) (f : Bool), '{' ∉ l → (scanLine l d f).2 = f := by
  intro l
  induction l with
  | nil => intro d f _; rfl
  | cons c r ih =>
    intro d f h
    have hc : c ≠ '{' := fun hh => h (hh ▸ List.mem_cons_self c r)
    rw [scanLine, if_neg (by simp [hc])]
    by_cases h2 : (c == '}') = true
    · rw [if_pos h2]
      exact ih _ _ (fun hh => h (List.mem_cons_of_mem c hh))
    · rw [if_neg h2]
      exact ih _ _ (fun hh => h (List.mem_cons_of_mem c hh))

/-- With no opening brace anywhere the capture loop can never close. -/
theorem noOpen_neverCloses :
    ∀ (ls : List (List Char)), (∀ l ∈ ls, '{' ∉ l) →
      ∀ (d : Int), neverClosesB ls d false = true := by
  intro ls
  induction ls with
  | nil => intro _ d; rfl
  | cons l ls ih =>
    intro h d
    rw [neverClosesB]
    have hf : (scanLine l d false).2 = false :=
      scanLine_no_open l d false (h l (List.mem_cons_self l ls))
    rw [Bool.and_eq_true]
    constructor
    · rw [hf]; rfl
    · rw [hf]
      exact ih (fun x hx => h x (List.mem_cons_of_mem l hx)) _

theorem extractGo_nil (n : Nat) (idx : Nat) (cls : List Char) :
    extractGo n [] idx cls = [] := by
  cases n <;> rfl

/-- Any two sufficient fuels give the same scan result: every loop iteration
    consumes at least one line (the cursor never jumps backwards), so the
    number of remaining lines bounds the number of iterations. -/
theorem extractGo_fuel :
    ∀ (n m : Nat) (ls : List (List Char)) (idx : Nat) (cls : List Char),
      ls.length ≤ n → ls.length ≤ m →
      extractGo n ls idx cls = extractGo m ls idx cls := by
  intro n
  induction n with
  | zero =>
    intro m ls idx cls hn _
    have : ls = [] := List.length_eq_zero.mp (Nat.le_zero.mp hn)
    subst this
    rw [extractGo_nil, extractGo_nil]
  | succ n ih =>
    intro m ls idx cls hn hm
    cases ls with
    | nil => rw [extractGo_nil, extractGo_nil]
    | cons l rest =>
      obtain ⟨m', rfl⟩ : ∃ m', m = m' + 1 := by
        cases m with
        | zero => simp at hm
        | succ m' => exact ⟨m', rfl⟩
      have h1 : rest.length ≤ n := by simp at hn; omega
      have h2 : rest.length ≤ m' := by simp at hm; omega
      simp only [extractGo]
      by_cases hsk : isSkippedLine l = true
      · rw [if_pos hsk, if_pos hsk]
        exact ih m' rest (idx + 1) cls h1 h2
      · rw [if_neg hsk, if_neg hsk]
        cases hms : methodSearch l with
        | none =>
          simp only [hms]
          exact ih m' rest (idx + 1) _ h1 h2
        | some nm =>
          simp only [hms]
          by_cases hkw : containsAnyKW l = true
          · rw [if_pos hkw, if_pos hkw]
            exact ih m' rest (idx + 1) _ h1 h2
          · rw [if_neg hkw, if_neg hkw]
            by_cases hrn : nm ∈ reservedNames
            · rw [if_pos hrn, if_pos hrn]
              exact ih m' rest (idx + 1) _ h1 h2
            · rw [if_neg hrn, if_neg hrn]
              have hp := captureCount_pos l rest 0 false
              have h3 : (List.drop (captureCount (l :: rest) 0 false) (l :: rest)).length ≤ n := by
                simp only [List.length_drop, List.length_cons]
                simp only [List.length_cons] at hn
                omega
              have h4 : (List.drop (captureCount (l :: rest) 0 false) (l :: rest)).length ≤ m' := by
                simp only [List.length_drop, List.length_cons]
                simp only [List.length_cons] at hm
                omega
              rw [ih m' _ _ _ h3 h4]

/-- Shared core of the unbalanced-capture claims: at a signature line that
    passes all filters, if the capture loop never finds its balance point then
    exactly one record is produced, its body is the whole remaining text, and
    no later line yields a record. -/
theorem extractGo_unbalanced (n : Nat) (l : List Char) (rest : List (List Char))
    (idx : Nat) (cls nm : List Char)
    (hn : (l :: rest).length ≤ n)
    (hsk : isSkippedLine l = false)
    (hms : methodSearch l = some nm)
    (hkw : containsAnyKW l = false)
    (hrn : nm ∉ reservedNames)
    (hnc : neverClosesB (l :: rest) 0 false = true) :
    extractGo n (l :: rest) idx cls =
      [((classSearch l).getD cls, nm, List.intercalate ['\n'] (l :: rest), idx + 1)] := by
  obtain ⟨n', rfl⟩ : ∃ n', n = n' + 1 := by
    cases n with
    | zero => simp at hn
    | succ n' => exact ⟨n', rfl⟩
  simp only [extractGo]
  rw [if_neg (by simp [hsk])]
  simp only [hms]
  rw [if_neg (by simp [hkw]), if_neg hrn]
  rw [neverCloses_captureAll _ _ _ hnc]
  rw [List.take_length, List.drop_length, extractGo_nil]

/-- No record produced by the scanning loop carries a reserved accessor name:
    the name filter guards the only place where a record is created. -/
theorem extractGo_names :
    ∀ (n : Nat) (ls : List (List Char)) (idx : Nat) (cls : List Char)
      (r : List Char × List Char × List Char × Nat),
      r ∈ extractGo n ls idx cls → r.2.1 ∉ reservedNames := by
  intro n
  induction n with
  | zero =>
    intro ls idx cls r hmem
    rw [show extractGo 0 ls idx cls = [] from rfl] at hmem
    cases hmem
  | succ n ih =>
    intro ls idx cls r hmem
    cases ls with
    | nil =>
      rw [extractGo_nil] at hmem
      cases hmem
    | cons l rest =>
      simp only [extractGo] at hmem
      by_cases hsk : isSkippedLine l = true
      · rw [if_pos hsk] at hmem
        exact ih rest (idx + 1) cls r hmem
      · rw [if_neg hsk] at hmem
        cases hms : methodSearch l with
        | none =>
          simp only [hms] at hmem
          exact ih rest (idx + 1) _ r hmem
        | some nm =>
          simp only [hms] at hmem
          by_cases hkw : containsAnyKW l = true
          · rw [if_pos hkw] at hmem
            exact ih rest (idx + 1) _ r hmem
          · rw [if_neg hkw] at hmem
            by_cases hrn : nm ∈ reservedNames
            · rw [if_pos hrn] at hmem
              exact ih rest (idx + 1) _ r hmem
            · rw [if_neg hrn] at hmem
              rcases List.mem_cons.mp hmem with hr | hr
              · subst hr
                exact hrn
              · exact ih _ _ _ r hr

/- ------------------------------------------------------------------
   The score as a function of the thirteen counts
   ------------------------------------------------------------------ -/

theorem calc_as_counts (b : List Char) :
    calculate_mccabe_complexity b =
      max 1 (1 + (∑ k : Fin 13, (countsF (normalize b) k : Int))
        - (countsF (normalize b) 1 : Int)) := by
  unfold calculate_mccabe_complexity
  simp only [countsF, countsList, List.getD, Fin.sum_univ_succ, Fin.sum_univ_zero,
    List.map_cons, List.map_nil, List.sum_cons, List.sum_nil]
  norm_num

/-- Two bodies with the same normalised text get the same score. -/
theorem calc_congr (b1 b2 : List Char) (h : normalize b1 = normalize b2) :
    calculate_mccabe_complexity b1 = calculate_mccabe_complexity b2 := by
  unfold calculate_mccabe_complexity
  rw [h]

/- ------------------------------------------------------------------
   The claims
   ------------------------------------------------------------------ -/

/-- C1, counterexample: on the body of the claimed scenario the score is not
    2; the plain if rule matches twice (once inside else if), so the raw tally
    is 1 + 2 + 1 and the single else-if correction leaves 3. -/
theorem mccabe_c1_counterexample :
    countIf (normalize "if (a) \x7b \x7d else if (b) \x7b \x7d".data) = 2
    ∧ countElseIf (normalize "if (a) \x7b \x7d else if (b) \x7b \x7d".data) = 1
    ∧ calculate_mccabe_complexity "if (a) \x7b \x7d else if (b) \x7b \x7d".data ≠ 2 := by
  decide

/-- C1, amended: for the method body of the scenario the score is
    1 (base) + 2 (the if rule matches both occurrences of if-parenthesis,
    including the one inside else if) + 1 (else-if raw match) − 1 (else-if
    correction) = 3. -/
theorem mccabe_c1 :
    calculate_mccabe_complexity "if (a) \x7b \x7d else if (b) \x7b \x7d".data = 3 := by
  decide

/-- C2, counterexample: an input whose first line matches the method signature
    pattern (and passes the filters) and which contains no opening brace at
    all still produces a record; the claimed behaviour (no record emitted) is
    false on the code. -/
theorem mccabe_c2_counterexample :
    methodSearch " void Foo()".data = some "Foo".data
    ∧ ('{' ∉ " void Foo()\nint y;".data)
    ∧ extract_methods " void Foo()\nint y;".data =
        [("Unknown".data, "Foo".data, " void Foo()\nint y;".data, 1)] := by
  decide

/-- C2, amended: when a scanned line matches the method signature pattern
    (and passes the keyword and name filters) but no opening brace occurs from
    that line to the end of the input, a record IS emitted for that line, its
    body is the whole remaining text, and no later line yields a record. -/
theorem mccabe_c2 (n : Nat) (l : List Char) (rest : List (List Char)) (idx : Nat)
    (cls nm : List Char)
    (hn : (l :: rest).length ≤ n)
    (hsk : isSkippedLine l = false)
    (hms : methodSearch l = some nm)
    (hkw : containsAnyKW l = false)
    (hrn : nm ∉ reservedNames)
    (hbr : ∀ x ∈ l :: rest, '{' ∉ x) :
    extractGo n (l :: rest) idx cls =
      [((classSearch l).getD cls, nm, List.intercalate ['\n'] (l :: rest), idx + 1)] :=
  extractGo_unbalanced n l rest idx cls nm hn hsk hms hkw hrn
    (noOpen_neverCloses (l :: rest) hbr 0)

theorem mccabe_c2_witness :
    extractGo 2 [" void Foo()".data, "int y;".data] 0 "Unknown".data =
      [((classSearch " void Foo()".data).getD "Unknown".data, "Foo".data,
        List.intercalate ['\n'] [" void Foo()".data, "int y;".data], 1)] :=
  mccabe_c2 2 " void Foo()".data ["int y;".data] 0 "Unknown".data "Foo".data
    (by decide) (by decide) (by decide) (by decide) (by decide) (by decide)

/-- C3: a body whose normalised text has zero matches in every one of the
    thirteen decision-point counters scores exactly 1, and every body
    whatsoever scores at least 1. -/
theorem mccabe_c3 :
    (∀ b : List Char, (∀ k : Fin 13, countsF (normalize b) k = 0) →
      calculate_mccabe_complexity b = 1)
    ∧ (∀ b : List Char, 1 ≤ calculate_mccabe_complexity b) := by
  constructor
  · intro b h
    rw [calc_as_counts]
    have hs : (∑ k : Fin 13, (countsF (normalize b) k : Int)) = 0 :=
      Finset.sum_eq_zero (fun k _ => by rw [h k]; rfl)
    rw [hs, h 1]
    norm_num
  · intro b
    unfold calculate_mccabe_complexity
    exact le_max_left _ _

theorem mccabe_c3_witness :
    calculate_mccabe_complexity "x = y;".data = 1
    ∧ 1 ≤ calculate_mccabe_complexity "x = y;".data :=
  ⟨mccabe_c3.1 "x = y;".data (by decide), mccabe_c3.2 "x = y;".data⟩

/-- C4: the contents of a double-quoted string literal (backslash-free and
    quote-free, i.e. genuinely inside one literal) contribute nothing to the
    score: emptying the literal leaves the score unchanged; likewise for a
    single-quoted character literal (in a text free of double quotes, which
    the earlier double-quote pass would otherwise touch). -/
theorem mccabe_c4 :
    (∀ p mid s : List Char, '"' ∉ p → '"' ∉ mid → '\\' ∉ mid →
      calculate_mccabe_complexity (p ++ '"' :: (mid ++ '"' :: s)) =
        calculate_mccabe_complexity (p ++ '"' :: '"' :: s))
    ∧ (∀ p mid s : List Char, '"' ∉ p → '"' ∉ mid → '"' ∉ s →
        sq ∉ p → sq ∉ mid → '\\' ∉ mid →
      calculate_mccabe_complexity (p ++ sq :: (mid ++ sq :: s)) =
        calculate_mccabe_complexity (p ++ sq :: sq :: s)) := by
  constructor
  · intro p mid s h1 h2 h3
    exact calc_congr _ _ (normalize_collapse_dq p mid s h1 h2 h3)
  · intro p mid s h1 h2 h3 h4 h5 h6
    exact calc_congr _ _ (normalize_collapse_sq p mid s h1 h2 h3 h4 h5 h6)

theorem mccabe_c4_witness :
    calculate_mccabe_complexity ("x = ".data ++ '"' :: ("a && b".data ++ '"' :: ";".data)) =
      calculate_mccabe_complexity ("x = ".data ++ '"' :: '"' :: ";".data) :=
  mccabe_c4.1 "x = ".data "a && b".data ";".data (by decide) (by decide) (by decide)

/-- C5: the scanner is a total function by construction, and when the capture
    loop started at a matched signature line never finds its brace balance
    point, the body of the emitted record extends to the end of the input and
    no later line yields a record. -/
theorem mccabe_c5 (n : Nat) (l : List Char) (rest : List (List Char)) (idx : Nat)
    (cls nm : List Char)
    (hn : (l :: rest).length ≤ n)
    (hsk : isSkippedLine l = false)
    (hms : methodSearch l = some nm)
    (hkw : containsAnyKW l = false)
    (hrn : nm ∉ reservedNames)
    (hnc : neverClosesB (l :: rest) 0 false = true) :
    extractGo n (l :: rest) idx cls =
      [((classSearch l).getD cls, nm, List.intercalate ['\n'] (l :: rest), idx + 1)] :=
  extractGo_unbalanced n l rest idx cls nm hn hsk hms hkw hrn hnc

theorem mccabe_c5_witness :
    extractGo 3 [" void Foo() \x7b".data, "\x7b".data, "\x7d".data] 0 "Unknown".data =
      [((classSearch " void Foo() \x7b".data).getD "Unknown".data, "Foo".data,
        List.intercalate ['\n'] [" void Foo() \x7b".data, "\x7b".data, "\x7d".data], 1)] :=
  mccabe_c5 3 " void Foo() \x7b".data ["\x7b".data, "\x7d".data] 0 "Unknown".data
    "Foo".data (by decide) (by decide) (by decide) (by decide) (by decide) (by decide)

/-- C6: the score is monotonically non-decreasing in any single decision-point
    category: if all thirteen counts agree except one, where the second body
    counts strictly more, the second score is at least the first (for the
    else-if category the raw increment and the correction cancel and the
    scores are equal). -/
theorem mccabe_c6 (b1 b2 : List Char) (k : Fin 13)
    (heq : ∀ j : Fin 13, j ≠ k → countsF (normalize b1) j = countsF (normalize b2) j)
    (hlt : countsF (normalize b1) k < countsF (normalize b2) k) :
    calculate_mccabe_complexity b1 ≤ calculate_mccabe_complexity b2 := by
  rw [calc_as_counts b1, calc_as_counts b2]
  have hsplit1 : (∑ j : Fin 13, (countsF (normalize b1) j : Int))
      = (∑ j in Finset.univ.erase k, (countsF (normalize b1) j : Int))
        + (countsF (normalize b1) k : Int) :=
    (Finset.sum_erase_add _ _ (Finset.mem_univ k)).symm
  have hsplit2 : (∑ j : Fin 13, (countsF (normalize b2) j : Int))
      = (∑ j in Finset.univ.erase k, (countsF (normalize b2) j : Int))
        + (countsF (normalize b2) k : Int) :=
    (Finset.sum_erase_add _ _ (Finset.mem_univ k)).symm
  have herase : (∑ j in Finset.univ.erase k, (countsF (normalize b1) j : Int))
      = (∑ j in Finset.univ.erase k, (countsF (normalize b2) j : Int)) :=
    Finset.sum_congr rfl (fun j hj => by rw [heq j (Finset.ne_of_mem_erase hj)])
  have hcast : (countsF (normalize b1) k : Int) ≤ (countsF (normalize b2) k : Int) := by
    exact_mod_cast hlt.le
  by_cases hk : k = (1 : Fin 13)
  · subst hk
    apply le_of_eq
    have h1 := heq
    rw [hsplit1, hsplit2, herase]
    ring_nf
  · have h1 : countsF (normalize b1) 1 = countsF (normalize b2) 1 :=
      heq 1 (fun h => hk h.symm)
    apply max_le_max (le_refl 1)
    rw [hsplit1, hsplit2, herase, h1]
    linarith

theorem mccabe_c6_witness :
    calculate_mccabe_complexity [] ≤ calculate_mccabe_complexity "if (".data :=
  mccabe_c6 [] "if (".data 0 (by decide) (by decide)

/-- C7: no record ever carries one of the five reserved accessor names. -/
theorem mccabe_c7 (content : List Char)
    (r : List Char × List Char × List Char × Nat)
    (h : r ∈ extract_methods content) : r.2.1 ∉ reservedNames :=
  extractGo_names (splitOnNl content).length (splitOnNl content) 0 "Unknown".data r h

theorem mccabe_c7_witness :
    ("B".data, "M".data, " void M() \x7b\n \x7d".data, 2).2.1 ∉ reservedNames :=
  mccabe_c7 "class B \x7b\n void M() \x7b\n \x7d\n\x7d".data
    ("B".data, "M".data, " void M() \x7b\n \x7d".data, 2) (by decide)

/-- C8: with two type declarations in sequence, the method M of the second
    class is associated with the most recently seen declaration B, not A. -/
theorem mccabe_c8 :
    extract_methods "class A \x7b\n int x;\n\x7d\nclass B \x7b\n void M() \x7b\n \x7d\n\x7d".data =
      [("B".data, "M".data, " void M() \x7b\n \x7d".data, 5)] := by
  decide

/-- C9, counterexample: a body whose normalised text holds exactly one ?? and
    no other decision-point match of any category still scores 2, not 3: when
    the ?? sits at the end of the text the ternary rule (a ? followed by a
    non-? character) has nothing to match after it. -/
theorem mccabe_c9_counterexample :
    countNullCoal (normalize "a ??".data) = 1
    ∧ countTernary (normalize "a ??".data) = 0
    ∧ countIf (normalize "a ??".data) = 0
    ∧ countElseIf (normalize "a ??".data) = 0
    ∧ countFor (normalize "a ??".data) = 0
    ∧ countForeach (normalize "a ??".data) = 0
    ∧ countWhile (normalize "a ??".data) = 0
    ∧ countDo (normalize "a ??".data) = 0
    ∧ countCase (normalize "a ??".data) = 0
    ∧ countCatchParen (normalize "a ??".data) = 0
    ∧ countCatchBrace (normalize "a ??".data) = 0
    ∧ countAnd (normalize "a ??".data) = 0
    ∧ countOr (normalize "a ??".data) = 0
    ∧ calculate_mccabe_complexity "a ??".data = 2 := by
  decide

/-- C9, amended: when the normalised body consists of a single ?? whose two
    characters are the only question marks of the text and which is followed
    by at least one further character, and none of the other eleven
    categories matches, the score is 3: the trailing ? of the ?? is also
    matched by the ternary rule, so this ?? contributes 2. -/
theorem mccabe_c9 (b u v : List Char)
    (hn : normalize b = u ++ '?' :: '?' :: v)
    (hu : ∀ c ∈ u, c ≠ '?') (hv : ∀ c ∈ v, c ≠ '?') (hne : v ≠ [])
    (h1 : countIf (normalize b) = 0)
    (h2 : countElseIf (normalize b) = 0)
    (h3 : countFor (normalize b) = 0)
    (h4 : countForeach (normalize b) = 0)
    (h5 : countWhile (normalize b) = 0)
    (h6 : countDo (normalize b) = 0)
    (h7 : countCase (normalize b) = 0)
    (h8 : countCatchParen (normalize b) = 0)
    (h9 : countCatchBrace (normalize b) = 0)
    (h10 : countAnd (normalize b) = 0)
    (h11 : countOr (normalize b) = 0) :
    calculate_mccabe_complexity b = 3 := by
  have ht : countTernary (normalize b) = 1 := by
    rw [hn]; exact countTernary_one u hu v hv hne
  have hq : countNullCoal (normalize b) = 1 := by
    rw [hn]; exact countNullCoal_one u hu v hv
  unfold calculate_mccabe_complexity
  simp only [countsList, List.map_cons, List.map_nil, List.sum_cons, List.sum_nil,
    h1, h2, h3, h4, h5, h6, h7, h8, h9, h10, h11, ht, hq]
  norm_num

theorem mccabe_c9_witness :
    calculate_mccabe_complexity "a ?? b".data = 3 :=
  mccabe_c9 "a ?? b".data "a ".data " b".data (by decide) (by decide) (by decide)
    (by decide) (by decide) (by decide) (by decide) (by decide) (by decide)
    (by decide) (by decide) (by decide) (by decide) (by decide) (by decide)

/-- C10: the scan terminates within one iteration per input line: any fuel of
    at least the number of lines computes extract_methods (the cursor advances
    by at least one line per iteration, also when it jumps past a captured
    body), and the inner body-capture loop consumes at least one and at most
    all of the remaining lines. -/
theorem mccabe_c10 :
    (∀ (content : List Char) (n : Nat), (splitOnNl content).length ≤ n →
      extractGo n (splitOnNl content) 0 "Unknown".data = extract_methods content)
    ∧ (∀ (ls : List (List Char)) (d : Int) (f : Bool), captureCount ls d f ≤ ls.length)
    ∧ (∀ (l : List Char) (ls : List (List Char)) (d : Int) (f : Bool),
        1 ≤ captureCount (l :: ls) d f) := by
  refine ⟨fun content n hn => ?_, captureCount_le, captureCount_pos⟩
  unfold extract_methods
  exact extractGo_fuel n (splitOnNl content).length (splitOnNl content) 0
    "Unknown".data hn (le_refl _)

theorem mccabe_c10_witness :
    extractGo 7 (splitOnNl "int y;".data) 0 "Unknown".data =
      extract_methods "int y;".data :=
  mccabe_c10.1 "int y;".data 7 (by decide)

end McCabe
